import Mathlib

/-!
Verification development for the `candle_server` repository
(`src/candle_server/src/utils.rs`, `src/candle_server/src/main.rs`).

Shallow embedding conventions:
* Rust `f64` prices are modelled as `ℚ`: the claims under scrutiny concern the
  *structure* of the candle algebra (which fields are combined, which error is
  returned and when), not IEEE-754 rounding.  Division by a nonzero rational is
  total, matching the fact that `f64` division by a nonzero double is total.
* Rust `u64` timestamps are modelled as `Nat`; the code only compares them for
  equality, so wrap-around is irrelevant.
* Rust `String` values are modelled as `List Char`; `&input[..i]` / slicing at
  the `'@'` boundary is modelled by splitting the character list at the last
  `'@'`.  `char::is_alphanumeric` is modelled by `Char.isAlphanum` (the inputs
  of interest are ASCII).
* A Rust panic (`Option::unwrap` on `None`) is modelled by an `Option` layer:
  `none` = panic, `some r` = normal completion with result `r`.
* Fallible Rust functions returning `Result<T, ServerError>` become
  `Except ServerError T`.
-/

namespace CandleServer

/-- The subset of `ServerError` (utils.rs lines 8-57) relevant to the pure
logic: all variants carrying no external payload. -/
inductive ServerError where
  | KeyNotFound
  | WebSocketConnect
  | WebSocketAccept
  | WebSocketTimeout
  | WebSocketWrite
  | DivisionByZero
  | Serialization
  | MismatchedTimestamps
  | ParsingStream
deriving DecidableEq, Repr

/-- `Candle` (utils.rs lines 122-129): kline start time plus open/close/high/low. -/
structure Candle where
  t : Nat
  o : ℚ
  c : ℚ
  h : ℚ
  l : ℚ
deriving DecidableEq, Repr

instance {ε α : Type} [DecidableEq ε] [DecidableEq α] : DecidableEq (Except ε α) :=
  fun a b =>
    match a, b with
    | .error e, .error f => decidable_of_iff (e = f) (by simp)
    | .error _, .ok _ => isFalse (by simp)
    | .ok _, .error _ => isFalse (by simp)
    | .ok x, .ok y => decidable_of_iff (x = y) (by simp)

/-- `Candle::assert_timestamps` (utils.rs lines 136-142). -/
def Candle.assert_timestamps (x : Candle) (y : Candle) : Except ServerError Unit :=
  if x.t ≠ y.t then .error .MismatchedTimestamps else .ok ()

/-- `Candle::add` (utils.rs lines 144-154). -/
def Candle.add (x : Candle) (y : Candle) : Except ServerError Candle := do
  x.assert_timestamps y
  pure ⟨x.t, x.o + y.o, x.c + y.c, x.h + y.h, x.l + y.l⟩

/-- `Candle::sub` (utils.rs lines 156-166). -/
def Candle.sub (x : Candle) (y : Candle) : Except ServerError Candle := do
  x.assert_timestamps y
  pure ⟨x.t, x.o - y.o, x.c - y.c, x.h - y.h, x.l - y.l⟩

/-- `Candle::mul` (utils.rs lines 168-178). -/
def Candle.mul (x : Candle) (y : Candle) : Except ServerError Candle := do
  x.assert_timestamps y
  pure ⟨x.t, x.o * y.o, x.c * y.c, x.h * y.h, x.l * y.l⟩

/-- `Candle::div` (utils.rs lines 180-194).  Note the order: the zero-field
guard on the right-hand candle runs *before* the timestamp check. -/
def Candle.div (x : Candle) (y : Candle) : Except ServerError Candle :=
  if y.o = 0 ∨ y.c = 0 ∨ y.h = 0 ∨ y.l = 0 then .error .DivisionByZero
  else do
    x.assert_timestamps y
    pure ⟨x.t, x.o / y.o, x.c / y.c, x.h / y.h, x.l / y.l⟩

/-- `Operation` (utils.rs lines 59-65). -/
inductive Operation where
  | Add
  | Subtract
  | Multiply
  | Divide
deriving DecidableEq, Repr

/-- `perform_operation` (utils.rs lines 197-208): checks timestamps first,
then dispatches to the candle methods. -/
def perform_operation (a : Candle) (b : Candle) (op : Operation) :
    Except ServerError Candle :=
  if a.t ≠ b.t then .error .MismatchedTimestamps
  else
    match op with
    | .Add => a.add b
    | .Subtract => a.sub b
    | .Multiply => a.mul b
    | .Divide => a.div b

section CandleAlgebra

lemma assert_timestamps_eq {x y : Candle} (h : x.t = y.t) :
    x.assert_timestamps y = .ok () := by
  simp [Candle.assert_timestamps, h]

lemma assert_timestamps_ne {x y : Candle} (h : x.t ≠ y.t) :
    x.assert_timestamps y = .error .MismatchedTimestamps := by
  simp [Candle.assert_timestamps, h]

/-- Claim C2: for candles with equal timestamps, `add`, `sub`, `mul` succeed
with timestamp `x.t` and field-wise arithmetic on `(o, c, h, l)`, and `div`
does likewise when all four fields of the divisor are nonzero (high/low by
straight arithmetic on the corresponding fields). -/
theorem candle_ops_fieldwise (x y : Candle) (h : x.t = y.t) :
    x.add y = .ok ⟨x.t, x.o + y.o, x.c + y.c, x.h + y.h, x.l + y.l⟩ ∧
    x.sub y = .ok ⟨x.t, x.o - y.o, x.c - y.c, x.h - y.h, x.l - y.l⟩ ∧
    x.mul y = .ok ⟨x.t, x.o * y.o, x.c * y.c, x.h * y.h, x.l * y.l⟩ ∧
    (y.o ≠ 0 → y.c ≠ 0 → y.h ≠ 0 → y.l ≠ 0 →
      x.div y = .ok ⟨x.t, x.o / y.o, x.c / y.c, x.h / y.h, x.l / y.l⟩) := by
  refine ⟨?_, ?_, ?_, ?_⟩
  · simp [Candle.add, assert_timestamps_eq h]
  · simp [Candle.sub, assert_timestamps_eq h]
  · simp [Candle.mul, assert_timestamps_eq h]
  · intro ho hc hh hl
    simp [Candle.div, ho, hc, hh, hl, assert_timestamps_eq h]

/-- Claim C2, witness at concrete candles. -/
theorem candle_ops_fieldwise_witness :
    (Candle.mk 5 1 2 3 4).add ⟨5, 10, 20, 30, 40⟩ = .ok ⟨5, 11, 22, 33, 44⟩ ∧
    (Candle.mk 5 1 2 3 4).div ⟨5, 10, 20, 30, 40⟩ =
      .ok ⟨5, 1/10, 2/20, 3/30, 4/40⟩ := by
  have h := candle_ops_fieldwise ⟨5, 1, 2, 3, 4⟩ ⟨5, 10, 20, 30, 40⟩ rfl
  constructor
  · rw [h.1]
    simp only [Except.ok.injEq, Candle.mk.injEq]
    norm_num
  · rw [h.2.2.2 (by decide) (by decide) (by decide) (by decide)]

/-- Claim C3: with equal timestamps, `div` fails with `DivisionByZero` exactly
when some field of the divisor is zero, and succeeds (with field-wise
quotients) otherwise. -/
theorem candle_div_zero_iff (x y : Candle) (h : x.t = y.t) :
    (x.div y = .error .DivisionByZero ↔
      (y.o = 0 ∨ y.c = 0 ∨ y.h = 0 ∨ y.l = 0)) ∧
    (¬(y.o = 0 ∨ y.c = 0 ∨ y.h = 0 ∨ y.l = 0) →
      x.div y = .ok ⟨x.t, x.o / y.o, x.c / y.c, x.h / y.h, x.l / y.l⟩) := by
  constructor
  · constructor
    · intro hd
      by_contra hz
      simp [Candle.div, hz, assert_timestamps_eq h] at hd
    · intro hz
      simp [Candle.div, hz]
  · intro hz
    simp [Candle.div, hz, assert_timestamps_eq h]

/-- Claim C3, witness: a zero `l` field triggers `DivisionByZero`; all fields
nonzero succeeds. -/
theorem candle_div_zero_iff_witness :
    (Candle.mk 7 1 1 1 1).div ⟨7, 2, 3, 4, 0⟩ = .error .DivisionByZero ∧
    (Candle.mk 7 1 1 1 1).div ⟨7, 2, 4, 8, 16⟩ =
      .ok ⟨7, 1/2, 1/4, 1/8, 1/16⟩ := by
  refine ⟨((candle_div_zero_iff ⟨7, 1, 1, 1, 1⟩ ⟨7, 2, 3, 4, 0⟩ rfl).1).mpr
      (by decide), ?_⟩
  exact (candle_div_zero_iff ⟨7, 1, 1, 1, 1⟩ ⟨7, 2, 4, 8, 16⟩ rfl).2 (by decide)

/-- Claim C4, counterexample: with mismatched timestamps and a zero field on
the right, `div` reports `DivisionByZero`, not `MismatchedTimestamps` (the
zero-field guard in utils.rs line 181 runs before `assert_timestamps` at line
185), so "every one of the four operations fails with MismatchedTimestamps" is
false. -/
theorem candle_div_mismatch_counterexample :
    (Candle.mk 0 1 1 1 1).t ≠ (Candle.mk 1 0 1 1 1).t ∧
    (Candle.mk 0 1 1 1 1).div ⟨1, 0, 1, 1, 1⟩ = .error .DivisionByZero ∧
    (Candle.mk 0 1 1 1 1).div ⟨1, 0, 1, 1, 1⟩ ≠ .error .MismatchedTimestamps := by
  refine ⟨by decide, by decide, by decide⟩

/-- Claim C4, amended: with mismatched timestamps, `add`, `sub`, `mul` fail
with `MismatchedTimestamps`; `div` fails with `DivisionByZero` when some field
of the right-hand candle is zero and with `MismatchedTimestamps` otherwise. -/
theorem candle_ops_mismatch (x y : Candle) (h : x.t ≠ y.t) :
    x.add y = .error .MismatchedTimestamps ∧
    x.sub y = .error .MismatchedTimestamps ∧
    x.mul y = .error .MismatchedTimestamps ∧
    x.div y = (if y.o = 0 ∨ y.c = 0 ∨ y.h = 0 ∨ y.l = 0
      then .error .DivisionByZero else .error .MismatchedTimestamps) := by
  refine ⟨?_, ?_, ?_, ?_⟩
  · simp [Candle.add, assert_timestamps_ne h]
  · simp [Candle.sub, assert_timestamps_ne h]
  · simp [Candle.mul, assert_timestamps_ne h]
  · by_cases hz : y.o = 0 ∨ y.c = 0 ∨ y.h = 0 ∨ y.l = 0
    · simp [Candle.div, hz]
    · simp [Candle.div, hz, assert_timestamps_ne h]

/-- Claim C4 (amended), witness at concrete candles. -/
theorem candle_ops_mismatch_witness :
    (Candle.mk 0 1 1 1 1).add ⟨1, 0, 1, 1, 1⟩ = .error .MismatchedTimestamps ∧
    (Candle.mk 0 1 1 1 1).div ⟨1, 0, 1, 1, 1⟩ =
      (if (0 : ℚ) = 0 ∨ (1 : ℚ) = 0 ∨ (1 : ℚ) = 0 ∨ (1 : ℚ) = 0
        then .error .DivisionByZero else .error .MismatchedTimestamps) := by
  have h := candle_ops_mismatch ⟨0, 1, 1, 1, 1⟩ ⟨1, 0, 1, 1, 1⟩ (by decide)
  exact ⟨h.1, h.2.2.2⟩

end CandleAlgebra

/-- `Operator` (utils.rs lines 262-269). -/
inductive Operator where
  | Plus
  | Minus
  | Multiply
  | Divide
  | NotOperator
deriving DecidableEq, Repr

/-- `Token` (utils.rs lines 254-260); operand strings as character lists. -/
inductive Token where
  | Operator : Operator → Token
  | Operand : List Char → Token
  | LeftParenthesis : Token
  | RightParenthesis : Token
deriving DecidableEq, Repr

/-- `impl From<char> for Operator` (utils.rs lines 271-281). -/
def opOfChar (c : Char) : Operator :=
  if c = '+' then .Plus
  else if c = '-' then .Minus
  else if c = '*' then .Multiply
  else if c = '/' then .Divide
  else .NotOperator

/-- Splitting `input` at the *last* `'@'` — the `input.rfind('@')` /
`&input[..i]` / `&input[(i+1)..]` idiom of utils.rs lines 230-233 and 310-311.
`none` models the `unwrap` panic when no `'@'` occurs. -/
def splitLast (cs : List Char) : Option (List Char × List Char) :=
  match cs with
  | [] => none
  | c :: rest =>
    match splitLast rest with
    | some (a, b) => some (c :: a, b)
    | none => if c = '@' then some ([], rest) else none

/-- The `"@kline_" + interval` operand suffix (utils.rs lines 233 and 311). -/
def klineSuffix (interval : List Char) : List Char :=
  '@' :: 'k' :: 'l' :: 'i' :: 'n' :: 'e' :: '_' :: interval

/-- Emitting a pending operand buffer: utils.rs lines 316-319 et al. push
`Operand(current_operand + postfix)` when the buffer is non-empty. -/
def flushOperand (cur suffix : List Char) : List Token :=
  if cur = [] then [] else [Token.Operand (cur ++ suffix)]

/-- The character loop of `parse` (utils.rs lines 313-342), recursion over the
characters before the `'@'`, carrying the `current_operand` buffer.  Note that
the `'('` arm does *not* flush the operand buffer, exactly as in the source. -/
def parseChars (suffix : List Char) : List Char → List Char →
    Except ServerError (List Token)
  | [], cur => .ok (flushOperand cur suffix)
  | c :: rest, cur =>
    if c = '+' ∨ c = '-' ∨ c = '*' ∨ c = '/' then
      (parseChars suffix rest []).map
        (fun ts => flushOperand cur suffix ++ Token.Operator (opOfChar c) :: ts)
    else if c = '(' then
      (parseChars suffix rest cur).map (fun ts => Token.LeftParenthesis :: ts)
    else if c = ')' then
      (parseChars suffix rest []).map
        (fun ts => flushOperand cur suffix ++ Token.RightParenthesis :: ts)
    else if c.isAlphanum then
      parseChars suffix rest (cur ++ [c])
    else .error .ParsingStream

/-- `parse` (utils.rs lines 307-345).  `none` = panic of the
`rfind('@').unwrap()` when the input has no `'@'`. -/
def parse (input : List Char) : Option (Except ServerError (List Token)) :=
  match splitLast input with
  | none => none
  | some (before, after) => some (parseChars (klineSuffix after) before [])

/-- The separator class of the regex in utils.rs line 236: one of the six
characters `(` `)` `+` `*` `/` `-`. -/
def isSepChar (c : Char) : Bool :=
  c = '(' ∨ c = ')' ∨ c = '+' ∨ c = '*' ∨ c = '/' ∨ c = '-'

/-- `Regex::split` on the separator class: the substrings between separator
occurrences, empties included (utils.rs line 237). -/
def splitSeps : List Char → List (List Char)
  | [] => [[]]
  | c :: rest =>
    if isSepChar c then [] :: splitSeps rest
    else
      match splitSeps rest with
      | [] => [[c]]
      | t :: ts => (c :: t) :: ts

/-- `parse_streams` (utils.rs lines 228-244).  The filter
`!token.trim().is_empty()` keeps exactly the fragments containing some
non-whitespace character; the *untrimmed* fragment is then suffixed.  `none` =
panic of `rfind('@').unwrap()`. -/
def parse_streams (input : List Char) : Option (List (List Char)) :=
  match splitLast input with
  | none => none
  | some (before, after) =>
    some (((splitSeps before).filter
        (fun t => t.any (fun c => !c.isWhitespace))).map
      (fun t => t ++ klineSuffix after))

section MissingAt

lemma splitLast_eq_none {cs : List Char} (h : '@' ∉ cs) : splitLast cs = none := by
  induction cs with
  | nil => rfl
  | cons c rest ih =>
    have hc : c ≠ '@' := fun hc => h (hc ▸ List.mem_cons_self c rest)
    have hr : '@' ∉ rest := fun hr => h (List.mem_cons_of_mem c hr)
    simp [splitLast, ih hr, hc]

/-- Claim C10: on any input containing no `'@'`, both `parse` and
`parse_streams` panic (`rfind('@').unwrap()` on `None`, modelled as `none`)
rather than returning an error. -/
theorem parse_no_at_panics (input : List Char) (h : ∀ c ∈ input, c ≠ '@') :
    parse input = none ∧ parse_streams input = none := by
  have hs : splitLast input = none := splitLast_eq_none (fun hm => h '@' hm rfl)
  exact ⟨by simp [parse, hs], by simp [parse_streams, hs]⟩

/-- Claim C10, witness: `"btcusdt1m"` (no `'@'`) makes both functions panic. -/
theorem parse_no_at_panics_witness :
    parse "btcusdt1m".toList = none ∧ parse_streams "btcusdt1m".toList = none :=
  parse_no_at_panics "btcusdt1m".toList (by decide)

end MissingAt

section OperandShape

/-- Shape of a successfully parsed operand token: a non-empty alphanumeric
bare symbol followed by the verbatim `@kline_<interval>` suffix. -/
def OperandShape (s suffix : List Char) : Prop :=
  ∃ X, s = X ++ suffix ∧ X ≠ [] ∧ ∀ c ∈ X, c.isAlphanum = true

lemma parseChars_operand_shape {suffix : List Char} :
    ∀ (cs cur : List Char) (ts : List Token),
      (∀ c ∈ cur, c.isAlphanum = true) →
      parseChars suffix cs cur = .ok ts →
      ∀ s, Token.Operand s ∈ ts → OperandShape s suffix := by
  intro cs
  induction cs with
  | nil =>
    intro cur ts hcur hp s hs
    simp only [parseChars] at hp
    injection hp with hp
    subst hp
    unfold flushOperand at hs
    by_cases hc : cur = []
    · simp [hc] at hs
    · simp [hc] at hs
      exact ⟨cur, hs, hc, hcur⟩
  | cons c rest ih =>
    intro cur ts hcur hp s hs
    simp only [parseChars] at hp
    by_cases hop : c = '+' ∨ c = '-' ∨ c = '*' ∨ c = '/'
    · simp only [if_pos hop, Except.map] at hp
      cases hrec : parseChars suffix rest [] with
      | error e => rw [hrec] at hp; exact absurd hp (by simp)
      | ok ts' =>
        rw [hrec] at hp
        injection hp with hp
        subst hp
        rw [List.mem_append] at hs
        rcases hs with hs | hs
        · unfold flushOperand at hs
          by_cases hc : cur = []
          · simp [hc] at hs
          · simp [hc] at hs
            exact ⟨cur, hs, hc, hcur⟩
        · rcases List.mem_cons.mp hs with hs | hs
          · exact absurd hs (by simp)
          · exact ih [] ts' (by simp) hrec s hs
    · simp only [if_neg hop] at hp
      by_cases hlp : c = '('
      · simp only [if_pos hlp, Except.map] at hp
        cases hrec : parseChars suffix rest cur with
        | error e => rw [hrec] at hp; exact absurd hp (by simp)
        | ok ts' =>
          rw [hrec] at hp
          injection hp with hp
          subst hp
          rcases List.mem_cons.mp hs with hs | hs
          · exact absurd hs (by simp)
          · exact ih cur ts' hcur hrec s hs
      · simp only [if_neg hlp] at hp
        by_cases hrp : c = ')'
        · simp only [if_pos hrp, Except.map] at hp
          cases hrec : parseChars suffix rest [] with
          | error e => rw [hrec] at hp; exact absurd hp (by simp)
          | ok ts' =>
            rw [hrec] at hp
            injection hp with hp
            subst hp
            rw [List.mem_append] at hs
            rcases hs with hs | hs
            · unfold flushOperand at hs
              by_cases hc : cur = []
              · simp [hc] at hs
              · simp [hc] at hs
                exact ⟨cur, hs, hc, hcur⟩
            · rcases List.mem_cons.mp hs with hs | hs
              · exact absurd hs (by simp)
              · exact ih [] ts' (by simp) hrec s hs
        · simp only [if_neg hrp] at hp
          by_cases han : c.isAlphanum
          · rw [if_pos han] at hp
            refine ih (cur ++ [c]) ts ?_ hp s hs
            intro d hd
            rcases List.mem_append.mp hd with hd | hd
            · exact hcur d hd
            · rw [List.mem_singleton.mp hd]; exact han
          · rw [if_neg han] at hp
            exact absurd hp (by simp)

/-- Claim C6, amended: on any input with an `'@'` on which `parse` succeeds,
every operand token is `X ++ "@kline_" ++ I` with `X` non-empty and purely
alphanumeric (hence `X` contains none of `+ - * / ( )`); the interval `I`
itself is appended verbatim and unchecked. -/
theorem parse_operand_shape (input before after : List Char) (ts : List Token)
    (hs : splitLast input = some (before, after))
    (hp : parse input = some (.ok ts)) :
    ∀ s, Token.Operand s ∈ ts → OperandShape s (klineSuffix after) := by
  rw [parse, hs] at hp
  injection hp with hp
  exact parseChars_operand_shape before [] ts (by simp) hp

/-- Claim C6 (amended), witness: the first operand of
`"btcusdt+ethusdt@1h"`. -/
theorem parse_operand_shape_witness :
    OperandShape "btcusdt@kline_1h".toList (klineSuffix "1h".toList) :=
  parse_operand_shape "btcusdt+ethusdt@1h".toList
    "btcusdt+ethusdt".toList "1h".toList
    [Token.Operand "btcusdt@kline_1h".toList,
     Token.Operator Operator.Plus,
     Token.Operand "ethusdt@kline_1h".toList]
    (by decide) (by decide) "btcusdt@kline_1h".toList (by decide)

/-- Claim C6, counterexample: the interval is everything after the *last*
`'@'` and is not validated, so `parse "a@1+m"` succeeds with the operand token
`"a@kline_1+m"`, which contains the character `'+'`; the claim's "no operand
token contains any of `+ - * / ( )`" is therefore false. -/
theorem parse_operand_plus_counterexample :
    parse "a@1+m".toList = some (.ok [Token.Operand "a@kline_1+m".toList]) ∧
    '+' ∈ "a@kline_1+m".toList := by
  exact ⟨by decide, by decide⟩

end OperandShape

/-- The `precedence` closure of `to_rpn` (utils.rs lines 352-360); the `_`
arm (operands, right parentheses) yields `usize::MAX`. -/
def precedence : Token → Nat
  | Token.Operator op =>
    match op with
    | .Plus | .Minus => 1
    | .Multiply | .Divide => 2
    | .NotOperator => 0
  | Token.LeftParenthesis => 0
  | _ => 18446744073709551615

/-- The operator-arm pop loop of `to_rpn` (utils.rs lines 365-371): pop while
the incoming precedence `p` is `≤` the precedence of the stack top.  Returns
(popped elements in pop order, remaining stack); stack head = top. -/
def popAll (p : Nat) : List Token → List Token × List Token
  | [] => ([], [])
  | t :: rest =>
    if p ≤ precedence t then
      let (a, b) := popAll p rest
      (t :: a, b)
    else ([], t :: rest)

/-- The right-parenthesis pop loop of `to_rpn` (utils.rs lines 382-387): pop
until a `LeftParenthesis` (which is discarded). -/
def popUntilLParen : List Token → List Token × List Token
  | [] => ([], [])
  | t :: rest =>
    if t = Token.LeftParenthesis then ([], rest)
    else
      let (a, b) := popUntilLParen rest
      (t :: a, b)

/-- Loop state of `to_rpn`: output so far, operator stack (head = top), and
the `open_brackets` counter. -/
structure SYState where
  rpn : List Token
  stack : List Token
  opens : Nat
deriving DecidableEq, Repr

/-- One iteration of the `for token in tokens` loop of `to_rpn`
(utils.rs lines 362-392). -/
def syStep (st : SYState) (t : Token) : Except ServerError SYState :=
  match t with
  | Token.Operator _ =>
    let (popped, rest) := popAll (precedence t) st.stack
    .ok ⟨st.rpn ++ popped, t :: rest, st.opens⟩
  | Token.LeftParenthesis => .ok ⟨st.rpn, t :: st.stack, st.opens + 1⟩
  | Token.RightParenthesis =>
    if st.opens = 0 then .error .ParsingStream
    else
      let (popped, rest) := popUntilLParen st.stack
      .ok ⟨st.rpn ++ popped, rest, st.opens - 1⟩
  | Token.Operand _ => .ok ⟨st.rpn ++ [t], st.stack, st.opens⟩

/-- The whole `for` loop of `to_rpn`, as structural recursion. -/
def runSY : List Token → SYState → Except ServerError SYState
  | [], st => .ok st
  | t :: rest, st =>
    match syStep st t with
    | .error e => .error e
    | .ok st' => runSY rest st'

/-- `to_rpn` (utils.rs lines 347-403): run the loop from the empty state,
reject leftover open brackets, then flush the stack onto the output. -/
def to_rpn (tokens : List Token) : Except ServerError (List Token) :=
  match runSY tokens ⟨[], [], 0⟩ with
  | .error e => .error e
  | .ok st => if st.opens ≠ 0 then .error .ParsingStream else .ok (st.rpn ++ st.stack)

/-- Compilation as used by `process_binance_stream` (main.rs line 178):
`to_rpn(&parse(&req.stream)?)`.  `none` = panic inside `parse`. -/
def compile (input : List Char) : Option (Except ServerError (List Token)) :=
  match parse input with
  | none => none
  | some (.error e) => some (.error e)
  | some (.ok ts) => some (to_rpn ts)

lemma runSY_append (l₁ l₂ : List Token) (st : SYState) :
    runSY (l₁ ++ l₂) st =
      match runSY l₁ st with
      | .error e => .error e
      | .ok st' => runSY l₂ st' := by
  induction l₁ generalizing st with
  | nil => simp [runSY]
  | cons t rest ih =>
    simp only [List.cons_append, runSY]
    cases syStep st t with
    | error e => rfl
    | ok st' => exact ih st'

section Parens

/-- Projection of a character sequence onto its parentheses
(`true` = `'('`). -/
def charParens (cs : List Char) : List Bool :=
  cs.filterMap (fun c =>
    if c = '(' then some true else if c = ')' then some false else none)

/-- Projection of a token sequence onto its parentheses (`true` = LParen). -/
def tokenParens (ts : List Token) : List Bool :=
  ts.filterMap (fun t =>
    match t with
    | Token.LeftParenthesis => some true
    | Token.RightParenthesis => some false
    | _ => none)

/-- Bracket-counter check: `false` iff some close has no matching open still
pending, or some opens are never closed. -/
def balCheck : List Bool → Nat → Bool
  | [], n => n = 0
  | b :: rest, n =>
    if b then balCheck rest (n + 1)
    else
      match n with
      | 0 => false
      | m + 1 => balCheck rest m

lemma flushOperand_parens (cur suffix : List Char) :
    tokenParens (flushOperand cur suffix) = [] := by
  unfold flushOperand
  by_cases hc : cur = [] <;> simp [hc, tokenParens]

lemma tokenParens_append (a b : List Token) :
    tokenParens (a ++ b) = tokenParens a ++ tokenParens b := by
  simp [tokenParens]

/-- `parse` reproduces the input's parenthesis sequence in its token list. -/
lemma parseChars_parens {suffix : List Char} :
    ∀ (cs cur : List Char) (ts : List Token),
      parseChars suffix cs cur = .ok ts → tokenParens ts = charParens cs := by
  intro cs
  induction cs with
  | nil =>
    intro cur ts hp
    simp only [parseChars] at hp
    injection hp with hp
    subst hp
    simp [flushOperand_parens, charParens]
  | cons c rest ih =>
    intro cur ts hp
    simp only [parseChars] at hp
    by_cases hop : c = '+' ∨ c = '-' ∨ c = '*' ∨ c = '/'
    · simp only [if_pos hop, Except.map] at hp
      cases hrec : parseChars suffix rest [] with
      | error e => rw [hrec] at hp; exact absurd hp (by simp)
      | ok ts' =>
        rw [hrec] at hp
        injection hp with hp
        subst hp
        have hc : charParens (c :: rest) = charParens rest := by
          rcases hop with h | h | h | h <;> subst h <;> simp [charParens]
        rw [hc, tokenParens_append, flushOperand_parens, ← ih [] ts' hrec]
        simp [tokenParens]
    · simp only [if_neg hop] at hp
      by_cases hlp : c = '('
      · simp only [if_pos hlp, Except.map] at hp
        cases hrec : parseChars suffix rest cur with
        | error e => rw [hrec] at hp; exact absurd hp (by simp)
        | ok ts' =>
          rw [hrec] at hp
          injection hp with hp
          subst hp
          subst hlp
          have h2 := ih cur ts' hrec
          simp [tokenParens, charParens] at h2 ⊢
          exact h2
      · simp only [if_neg hlp] at hp
        by_cases hrp : c = ')'
        · simp only [if_pos hrp, Except.map] at hp
          cases hrec : parseChars suffix rest [] with
          | error e => rw [hrec] at hp; exact absurd hp (by simp)
          | ok ts' =>
            rw [hrec] at hp
            injection hp with hp
            subst hp
            subst hrp
            have h2 := ih [] ts' hrec
            rw [tokenParens_append, flushOperand_parens]
            simp [tokenParens, charParens] at h2 ⊢
            exact h2
        · simp only [if_neg hrp] at hp
          by_cases han : c.isAlphanum
          · rw [if_pos han] at hp
            have hc : charParens (c :: rest) = charParens rest := by
              simp [charParens, hlp, hrp]
            rw [hc]
            exact ih (cur ++ [c]) ts hp
          · rw [if_neg han] at hp
            exact absurd hp (by simp)

/-- `syStep` leaves the parenthesis counter in lockstep with `balCheck`, and
its only error is `ParsingStream` on close-without-open. -/
lemma runSY_balance :
    ∀ (ts : List Token) (st : SYState),
      (∀ st', runSY ts st = .ok st' →
        balCheck (tokenParens ts) st.opens = decide (st'.opens = 0)) ∧
      (∀ e, runSY ts st = .error e →
        e = .ParsingStream ∧ balCheck (tokenParens ts) st.opens = false) := by
  intro ts
  induction ts with
  | nil =>
    intro st
    constructor
    · intro st' h
      injection h with h
      subst h
      simp [tokenParens, balCheck]
    · intro e h
      exact absurd h (by simp [runSY])
  | cons t rest ih =>
    intro st
    match t with
    | Token.Operator op =>
      have hst : runSY (Token.Operator op :: rest) st =
          runSY rest ⟨st.rpn ++ (popAll (precedence (Token.Operator op)) st.stack).1,
            Token.Operator op :: (popAll (precedence (Token.Operator op)) st.stack).2,
            st.opens⟩ := by
        simp [runSY, syStep]
      have hpar : tokenParens (Token.Operator op :: rest) = tokenParens rest := by
        simp [tokenParens]
      constructor
      · intro st' h
        rw [hst] at h
        rw [hpar]
        have hh := (ih _).1 st' h
        exact hh
      · intro e h
        rw [hst] at h
        rw [hpar]
        have hh := (ih _).2 e h
        exact hh
    | Token.Operand s =>
      have hst : runSY (Token.Operand s :: rest) st =
          runSY rest ⟨st.rpn ++ [Token.Operand s], st.stack, st.opens⟩ := by
        simp [runSY, syStep]
      have hpar : tokenParens (Token.Operand s :: rest) = tokenParens rest := by
        simp [tokenParens]
      constructor
      · intro st' h
        rw [hst] at h
        rw [hpar]
        have hh := (ih _).1 st' h
        exact hh
      · intro e h
        rw [hst] at h
        rw [hpar]
        have hh := (ih _).2 e h
        exact hh
    | Token.LeftParenthesis =>
      have hst : runSY (Token.LeftParenthesis :: rest) st =
          runSY rest ⟨st.rpn, Token.LeftParenthesis :: st.stack, st.opens + 1⟩ := by
        simp [runSY, syStep]
      have hpar : tokenParens (Token.LeftParenthesis :: rest) =
          true :: tokenParens rest := by
        simp [tokenParens]
      constructor
      · intro st' h
        rw [hst] at h
        rw [hpar]
        simpa [balCheck] using (ih _).1 st' h
      · intro e h
        rw [hst] at h
        rw [hpar]
        simpa [balCheck] using (ih _).2 e h
    | Token.RightParenthesis =>
      have hpar : tokenParens (Token.RightParenthesis :: rest) =
          false :: tokenParens rest := by
        simp [tokenParens]
      by_cases hz : st.opens = 0
      · have hst : runSY (Token.RightParenthesis :: rest) st =
            .error .ParsingStream := by
          simp [runSY, syStep, hz]
        constructor
        · intro st' h
          rw [hst] at h
          exact absurd h (by simp)
        · intro e h
          rw [hst] at h
          injection h with h
          subst h
          refine ⟨rfl, ?_⟩
          rw [hpar, hz]
          simp [balCheck]
      · obtain ⟨m, hm⟩ := Nat.exists_eq_succ_of_ne_zero hz
        have hst : runSY (Token.RightParenthesis :: rest) st =
            runSY rest ⟨st.rpn ++ (popUntilLParen st.stack).1,
              (popUntilLParen st.stack).2, st.opens - 1⟩ := by
          simp [runSY, syStep, hz]
        constructor
        · intro st' h
          rw [hst] at h
          rw [hpar, hm]
          simpa [balCheck, hm] using (ih _).1 st' h
        · intro e h
          rw [hst] at h
          rw [hpar, hm]
          simpa [balCheck, hm] using (ih _).2 e h

/-- On any unbalanced token sequence, `to_rpn` fails with `ParsingStream`. -/
lemma to_rpn_unbalanced {ts : List Token}
    (h : balCheck (tokenParens ts) 0 = false) :
    to_rpn ts = .error .ParsingStream := by
  unfold to_rpn
  cases hrun : runSY ts ⟨[], [], 0⟩ with
  | error e =>
    have := ((runSY_balance ts ⟨[], [], 0⟩).2 e hrun).1
    rw [this]
  | ok st =>
    have hbal := (runSY_balance ts ⟨[], [], 0⟩).1 st hrun
    rw [h] at hbal
    have : st.opens ≠ 0 := by
      intro h0
      rw [h0] at hbal
      simp at hbal
    simp [this]

/-- The only error `parseChars` ever raises is `ParsingStream`. -/
lemma parseChars_error {suffix : List Char} :
    ∀ (cs cur : List Char) (e : ServerError),
      parseChars suffix cs cur = .error e → e = .ParsingStream := by
  intro cs
  induction cs with
  | nil =>
    intro cur e hp
    exact absurd hp (by simp [parseChars])
  | cons c rest ih =>
    intro cur e hp
    simp only [parseChars] at hp
    by_cases hop : c = '+' ∨ c = '-' ∨ c = '*' ∨ c = '/'
    · simp only [if_pos hop, Except.map] at hp
      cases hrec : parseChars suffix rest [] with
      | error e' =>
        rw [hrec] at hp
        injection hp with hp
        subst hp
        exact ih [] e' hrec
      | ok ts' => rw [hrec] at hp; exact absurd hp (by simp)
    · simp only [if_neg hop] at hp
      by_cases hlp : c = '('
      · simp only [if_pos hlp, Except.map] at hp
        cases hrec : parseChars suffix rest cur with
        | error e' =>
          rw [hrec] at hp
          injection hp with hp
          subst hp
          exact ih cur e' hrec
        | ok ts' => rw [hrec] at hp; exact absurd hp (by simp)
      · simp only [if_neg hlp] at hp
        by_cases hrp : c = ')'
        · simp only [if_pos hrp, Except.map] at hp
          cases hrec : parseChars suffix rest [] with
          | error e' =>
            rw [hrec] at hp
            injection hp with hp
            subst hp
            exact ih [] e' hrec
          | ok ts' => rw [hrec] at hp; exact absurd hp (by simp)
        · simp only [if_neg hrp] at hp
          by_cases han : c.isAlphanum
          · rw [if_pos han] at hp
            exact ih (cur ++ [c]) e hp
          · rw [if_neg han] at hp
            injection hp with hp
            exact hp.symm

/-- Claim C5: any input whose expression part has unbalanced parentheses (a
close without a pending open, or an open never closed) fails compilation with
`ParsingStream` — either in the tokenizer (whose sole error is
`ParsingStream`) or in `to_rpn`. -/
theorem compile_unbalanced_fails (input before after : List Char)
    (hs : splitLast input = some (before, after))
    (hbal : balCheck (charParens before) 0 = false) :
    compile input = some (.error .ParsingStream) := by
  unfold compile parse
  rw [hs]
  cases hp : parseChars (klineSuffix after) before [] with
  | error e =>
    have he := parseChars_error before [] e hp
    subst he
    simp [hp]
  | ok ts =>
    have hr := to_rpn_unbalanced
      (by rw [parseChars_parens before [] ts hp]; exact hbal)
    simp [hp, hr]

/-- Claim C5, witness: the spec's scenario S4, an unclosed `'('`. -/
theorem compile_unbalanced_fails_witness :
    compile "(btcusdt+ethusdt*adausdt@1m".toList = some (.error .ParsingStream) :=
  compile_unbalanced_fails "(btcusdt+ethusdt*adausdt@1m".toList
    "(btcusdt+ethusdt*adausdt".toList "1m".toList (by decide) (by decide)

end Parens

section Evaluator

/-- The RPN-walk of `process_binance_stream` (main.rs lines 182-225), one tick.
`env` models `state.connections`: the candles drained from the upstream
connection registered under a symbol (`[]` when the key is absent, matching
the skipped `if let Some(..)`; message deserialization and price parsing are
abstracted into the delivered `Candle` values).  Candles read from a
connection are pushed one by one, so the last-received candle ends up on top.
An `Operator` token pops `rhs` then `lhs` with `pop().unwrap()` — `none`
models that panic when the stack underflows; `NotOperator` and parenthesis
tokens return `ParsingStream`. -/
def processGo (env : List Char → List Candle) :
    List Token → List Candle → Option (Except ServerError (List Candle))
  | [], stack => some (.ok stack)
  | t :: rest, stack =>
    match t with
    | Token.Operand s => processGo env rest ((env s).reverse ++ stack)
    | Token.Operator op =>
      match stack with
      | rhs :: lhs :: stack' =>
        match (match op with
          | .Plus => lhs.add rhs
          | .Minus => lhs.sub rhs
          | .Multiply => lhs.mul rhs
          | .Divide => lhs.div rhs
          | .NotOperator => .error .ParsingStream) with
        | .error e => some (.error e)
        | .ok c => processGo env rest (c :: stack')
      | _ => none
    | _ => some (.error .ParsingStream)

/-- Claim C8, counterexample: an `Operator` token reached with an empty value
stack makes the evaluator panic (`pop().unwrap()` on `None`, main.rs lines
210-211, modelled as `none`); it does *not* fail with `ParsingStream`. -/
theorem eval_underflow_counterexample :
    processGo (fun _ => []) [Token.Operator Operator.Plus] [] = none ∧
    processGo (fun _ => []) [Token.Operator Operator.Plus] [] ≠
      some (.error ServerError.ParsingStream) :=
  ⟨rfl, by decide⟩

/-- Claim C8, amended: whenever an `Operator` token is reached while the value
stack holds fewer than 2 candles, evaluation panics (unwrap on a failed pop)
instead of returning `ParsingStream`; `ParsingStream` is produced only for
`NotOperator` or parenthesis tokens in the plan. -/
theorem eval_underflow_panics (env : List Char → List Candle) (op : Operator)
    (rest : List Token) (stack : List Candle) (h : stack.length < 2) :
    processGo env (Token.Operator op :: rest) stack = none := by
  match stack with
  | [] => rfl
  | [c] => rfl
  | a :: b :: s => exact absurd h (by simp)

/-- Claim C8 (amended), witness: the plan compiled from `"a++b@1m"` is
`[a, +, b, +]`; with one candle delivered for `a`, the first `+` is reached
with a single-element stack and the evaluator panics. -/
theorem eval_underflow_panics_witness :
    compile "a++b@1m".toList =
      some (.ok [Token.Operand "a@kline_1m".toList, Token.Operator Operator.Plus,
        Token.Operand "b@kline_1m".toList, Token.Operator Operator.Plus]) ∧
    processGo (fun _ => [])
      [Token.Operator Operator.Plus, Token.Operand "b@kline_1m".toList,
        Token.Operator Operator.Plus] [Candle.mk 0 1 1 1 1] = none :=
  ⟨by decide, eval_underflow_panics (fun _ => []) Operator.Plus
    [Token.Operand "b@kline_1m".toList, Token.Operator Operator.Plus]
    [Candle.mk 0 1 1 1 1] (by decide)⟩

end Evaluator

section Registry

/-- `Request` (utils.rs lines 210-215). -/
structure Request where
  id : Nat
  method : List Char
  stream : List Char
deriving DecidableEq, Repr

/-- `BinanceSubscription` (utils.rs lines 217-222): the upstream SUBSCRIBE
frame. -/
structure BinanceSubscription where
  id : Nat
  method : List Char
  params : List (List Char)
deriving DecidableEq, Repr

/-- The observable server state for `subscribe_to_binance`: the key set of
`ServerState.connections` (main.rs lines 17-19), plus an effect log — how
many upstream sockets were opened and which SUBSCRIBE frames were sent (each
frame is sent on its own freshly opened connection). -/
structure ServerState where
  connections : List (List Char)
  opened : Nat
  sent : List BinanceSubscription
deriving DecidableEq, Repr

/-- `Server::subscribe_to_binance` (main.rs lines 57-85), with the network
abstracted as always succeeding: if the request's `stream` string is already a
key of the map, return `Ok` untouched; otherwise open a connection, send one
SUBSCRIBE frame whose `params` come from `parse_streams`, and insert the key.
`none` models the `parse_streams` unwrap panic on a stream without `'@'`. -/
def subscribe_to_binance (st : ServerState) (req : Request) :
    Option (ServerState × Except ServerError Unit) :=
  if req.stream ∈ st.connections then some (st, .ok ())
  else
    match parse_streams req.stream with
    | none => none
    | some params =>
      some (⟨req.stream :: st.connections, st.opened + 1,
        st.sent ++ [⟨req.id, req.method, params⟩]⟩, .ok ())

/-- Sequential client requests hitting the registry. -/
def runSubscribes : ServerState → List Request → Option ServerState
  | st, [] => some st
  | st, r :: rs =>
    match subscribe_to_binance st r with
    | none => none
    | some (st', _) => runSubscribes st' rs

/-- Claim C9, counterexample: deduplication is keyed by the *whole expression
string*, not by stream identifier.  Two different expressions both referencing
`btcusdt@kline_1m` open two upstream connections whose SUBSCRIBE params both
contain that stream identifier, refuting "at most one live upstream connection
subscribed to s". -/
theorem subscribe_shared_stream_counterexample :
    (runSubscribes ⟨[], 0, []⟩
        [⟨1, "SUBSCRIBE".toList, "btcusdt@1m".toList⟩,
         ⟨2, "SUBSCRIBE".toList, "btcusdt+ethusdt@1m".toList⟩]).map
      (fun st => ((st.sent.filter
        (fun f => "btcusdt@kline_1m".toList ∈ f.params)).length, st.opened)) =
      some (2, 2) := by
  decide

/-- Claim C9, amended: the registry deduplicates per request-`stream` string
(the whole expression): a subscribe whose key is already present returns `Ok`
without opening a connection, sending a frame, or modifying the map, so
repeated requests with the *same* expression share one upstream socket. -/
theorem subscribe_dedup_by_expression (st : ServerState) (req : Request)
    (h : req.stream ∈ st.connections) :
    subscribe_to_binance st req = some (st, .ok ()) := by
  simp [subscribe_to_binance, h]

/-- Claim C9 (amended), witness. -/
theorem subscribe_dedup_by_expression_witness :
    subscribe_to_binance ⟨["btcusdt@1m".toList], 1,
        [⟨1, "SUBSCRIBE".toList, ["btcusdt@kline_1m".toList]⟩]⟩
      ⟨2, "SUBSCRIBE".toList, "btcusdt@1m".toList⟩ =
      some (⟨["btcusdt@1m".toList], 1,
        [⟨1, "SUBSCRIBE".toList, ["btcusdt@kline_1m".toList]⟩]⟩, .ok ()) :=
  subscribe_dedup_by_expression _ _ (by decide)

end Registry

section RpnCorrectness

/-- Abstract syntax of infix expressions over bare operands (spec side, for
stating what "the standard postfix form" of a token sequence is). -/
inductive Expr where
  | atom : List Char → Expr
  | bin : Operator → Expr → Expr → Expr

/-- The standard postfix (RPN) form of an expression. -/
def rpnOfExpr : Expr → List Token
  | .atom a => [Token.Operand a]
  | .bin op el er => rpnOfExpr el ++ rpnOfExpr er ++ [Token.Operator op]

/-- Modelled from the spec's grammar of well-formed infix expressions with
normal precedence (`+`,`-` at 1; `*`,`/` at 2) and left associativity:
`Lv p e ts` says the token sequence `ts` is a well-formed infix rendering,
readable at precedence level `p`, whose standard left-associative reading is
`e`.  Level 3 is a primary (operand, or a parenthesized level-1 expression —
redundant parentheses included); `bin` glues a level-`p` left argument, an
operator of precedence exactly `p`, and a level-`p+1` right argument, which is
precisely left associativity. -/
inductive Lv : Nat → Expr → List Token → Prop where
  | atom (a : List Char) : Lv 3 (.atom a) [Token.Operand a]
  | paren {e : Expr} {ts : List Token} (h : Lv 1 e ts) :
      Lv 3 e (Token.LeftParenthesis :: ts ++ [Token.RightParenthesis])
  | lift {p : Nat} {e : Expr} {ts : List Token} (h : Lv (p + 1) e ts) :
      Lv p e ts
  | bin {p : Nat} {op : Operator} {el er : Expr} {ls rs : List Token}
      (hop : precedence (Token.Operator op) = p)
      (hl : Lv p el ls) (hr : Lv (p + 1) er rs) :
      Lv p (.bin op el er) (ls ++ Token.Operator op :: rs)

lemma popAll_spec (q : Nat) :
    ∀ (P s : List Token), (∀ x ∈ P, q ≤ precedence x) →
      (∀ t, s.head? = some t → precedence t < q) →
      popAll q (P ++ s) = (P, s) := by
  intro P
  induction P with
  | nil =>
    intro s hP hs
    cases s with
    | nil => rfl
    | cons t rest =>
      have ht := hs t rfl
      simp [popAll, Nat.not_le.mpr ht]
  | cons x P' ih =>
    intro s hP hs
    have hx : q ≤ precedence x := hP x (List.mem_cons_self _ _)
    simp [popAll, hx, ih s (fun y hy => hP y (List.mem_cons_of_mem _ hy)) hs]

lemma popUntilLParen_spec :
    ∀ (P s : List Token), (∀ x ∈ P, x ≠ Token.LeftParenthesis) →
      popUntilLParen (P ++ Token.LeftParenthesis :: s) = (P, s) := by
  intro P
  induction P with
  | nil =>
    intro s h
    simp [popUntilLParen]
  | cons x P' ih =>
    intro s h
    have hx : x ≠ Token.LeftParenthesis := h x (List.mem_cons_self _ _)
    simp [popUntilLParen, hx, ih s (fun y hy => h y (List.mem_cons_of_mem _ hy))]

/-- Shunting-yard invariant: running the `to_rpn` loop over a well-formed
level-`p` token sequence, from a stack whose top binds strictly less tightly
than `p`, emits a prefix `X` of the expression's postfix form and leaves the
remaining pending suffix `P` (operators of precedence `≥ p`) on the stack,
with the bracket counter untouched and no error. -/
lemma runSY_wf : ∀ {p : Nat} {e : Expr} {ts : List Token}, Lv p e ts →
    ∀ (r s : List Token) (o : Nat),
      (∀ t, s.head? = some t → precedence t < p) →
      ∃ X P, runSY ts ⟨r, s, o⟩ = .ok ⟨r ++ X, P ++ s, o⟩ ∧
        X ++ P = rpnOfExpr e ∧
        ∀ x ∈ P, (∃ op, x = Token.Operator op) ∧ p ≤ precedence x := by
  intro p e ts hw
  induction hw with
  | @atom a =>
    intro r s o hs
    refine ⟨[Token.Operand a], [], ?_, by simp [rpnOfExpr], by simp⟩
    simp [runSY, syStep]
  | @paren e ts h ih =>
    intro r s o hs
    obtain ⟨X, P, hrun, hX, hP⟩ := ih r (Token.LeftParenthesis :: s) (o + 1)
      (by
        intro t ht
        injection ht with ht
        subst ht
        decide)
    have hpop : popUntilLParen (P ++ Token.LeftParenthesis :: s) = (P, s) := by
      apply popUntilLParen_spec
      intro x hx
      obtain ⟨op, hop⟩ := (hP x hx).1
      subst hop
      simp
    refine ⟨X ++ P, [], ?_, by simp [hX], by simp⟩
    have h1 : runSY (Token.LeftParenthesis :: ts ++ [Token.RightParenthesis])
        ⟨r, s, o⟩ = runSY (ts ++ [Token.RightParenthesis])
          ⟨r, Token.LeftParenthesis :: s, o + 1⟩ := by
      simp [runSY, syStep]
    rw [h1, runSY_append, hrun]
    simp [runSY, syStep, hpop, List.append_assoc]
  | @lift p e ts h ih =>
    intro r s o hs
    obtain ⟨X, P, hrun, hX, hP⟩ :=
      ih r s o (fun t ht => Nat.lt_succ_of_lt (hs t ht))
    exact ⟨X, P, hrun, hX,
      fun x hx => ⟨(hP x hx).1, Nat.le_of_succ_le (hP x hx).2⟩⟩
  | @bin p op el er ls rs hop hl hr ihl ihr =>
    intro r s o hs
    obtain ⟨Xl, Pl, hrunl, hXl, hPl⟩ := ihl r s o hs
    have hpop : popAll (precedence (Token.Operator op)) (Pl ++ s) = (Pl, s) := by
      apply popAll_spec
      · intro x hx
        rw [hop]
        exact (hPl x hx).2
      · intro t ht
        rw [hop]
        exact hs t ht
    obtain ⟨Xr, Pr, hrunr, hXr, hPr⟩ := ihr (r ++ Xl ++ Pl)
      (Token.Operator op :: s) o
      (by
        intro t ht
        injection ht with ht
        subst ht
        rw [hop]
        exact Nat.lt_succ_self p)
    refine ⟨Xl ++ (Pl ++ Xr), Pr ++ [Token.Operator op], ?_, ?_, ?_⟩
    · have h2 : runSY (Token.Operator op :: rs) ⟨r ++ Xl, Pl ++ s, o⟩ =
          runSY rs ⟨r ++ Xl ++ Pl, Token.Operator op :: s, o⟩ := by
        simp [runSY, syStep, hpop]
      simp only [runSY_append, hrunl]
      rw [h2, hrunr]
      simp [List.append_assoc]
    · rw [rpnOfExpr, ← hXl, ← hXr]
      simp [List.append_assoc]
    · intro x hx
      rcases List.mem_append.mp hx with hx | hx
      · exact ⟨(hPr x hx).1, Nat.le_of_succ_le (hPr x hx).2⟩
      · rw [List.mem_singleton.mp hx]
        exact ⟨⟨op, rfl⟩, le_of_eq hop.symm⟩

/-- On any well-formed token sequence, `to_rpn` emits the standard postfix
form of its left-associative precedence reading. -/
lemma to_rpn_wf {e : Expr} {ts : List Token} (hw : Lv 1 e ts) :
    to_rpn ts = .ok (rpnOfExpr e) := by
  obtain ⟨X, P, hrun, hX, hP⟩ := runSY_wf hw [] [] 0 (by intro t ht; simp at ht)
  unfold to_rpn
  rw [hrun]
  simp [hX]

/-- Claim C1: for every well-formed infix expression (in the sense of the
leveled grammar `Lv`, normal precedence, all four operators
left-associative), compilation — `parse` then `to_rpn` — produces exactly the
standard postfix form of its reading. -/
theorem compile_standard_rpn (input : List Char) (ts : List Token) (e : Expr)
    (hp : parse input = some (.ok ts)) (hw : Lv 1 e ts) :
    compile input = some (.ok (rpnOfExpr e)) := by
  simp [compile, hp, to_rpn_wf hw]

/-- Claim C1, witness: `a-b-c@1m` compiles to the left-associative postfix
sequence `a b - c -`. -/
theorem compile_standard_rpn_witness :
    compile "a-b-c@1m".toList = some (.ok
      [Token.Operand "a@kline_1m".toList, Token.Operand "b@kline_1m".toList,
       Token.Operator Operator.Minus, Token.Operand "c@kline_1m".toList,
       Token.Operator Operator.Minus]) := by
  have hw : Lv 1
      (Expr.bin Operator.Minus
        (Expr.bin Operator.Minus (Expr.atom "a@kline_1m".toList)
          (Expr.atom "b@kline_1m".toList))
        (Expr.atom "c@kline_1m".toList))
      (([Token.Operand "a@kline_1m".toList] ++ Token.Operator Operator.Minus ::
        [Token.Operand "b@kline_1m".toList]) ++ Token.Operator Operator.Minus ::
        [Token.Operand "c@kline_1m".toList]) :=
    Lv.bin rfl
      (Lv.bin rfl (Lv.lift (Lv.lift (Lv.atom _))) (Lv.lift (Lv.atom _)))
      (Lv.lift (Lv.atom _))
  have h := compile_standard_rpn "a-b-c@1m".toList _ _ (by decide) hw
  rw [h]
  decide

end RpnCorrectness

section Streams

/-- The operand identifiers referenced by a token sequence, in occurrence
order. -/
def operandsOf (ts : List Token) : List (List Char) :=
  ts.filterMap (fun t =>
    match t with
    | Token.Operand s => some s
    | _ => none)

lemma operandsOf_append (a b : List Token) :
    operandsOf (a ++ b) = operandsOf a ++ operandsOf b := by
  simp [operandsOf]

lemma operandsOf_eq_nil {l : List Token}
    (h : ∀ x ∈ l, ∀ s, x ≠ Token.Operand s) : operandsOf l = [] := by
  rw [operandsOf, List.filterMap_eq_nil_iff]
  intro x hx
  match x with
  | Token.Operand s => exact absurd rfl (h _ hx s)
  | Token.Operator op => rfl
  | Token.LeftParenthesis => rfl
  | Token.RightParenthesis => rfl

lemma popAll_join (q : Nat) :
    ∀ l : List Token, (popAll q l).1 ++ (popAll q l).2 = l := by
  intro l
  induction l with
  | nil => rfl
  | cons t rest ih =>
    by_cases hq : q ≤ precedence t
    · simp [popAll, hq, ih]
    · simp [popAll, hq]

lemma popUntilLParen_mem :
    ∀ (l : List Token) (x : Token),
      (x ∈ (popUntilLParen l).1 → x ∈ l) ∧ (x ∈ (popUntilLParen l).2 → x ∈ l) := by
  intro l
  induction l with
  | nil =>
    intro x
    exact ⟨fun h => by simp [popUntilLParen] at h,
      fun h => by simp [popUntilLParen] at h⟩
  | cons t rest ih =>
    intro x
    by_cases ht : t = Token.LeftParenthesis
    · refine ⟨fun h => by simp [popUntilLParen, ht] at h, fun h => ?_⟩
      simp only [popUntilLParen, if_pos ht] at h
      exact List.mem_cons_of_mem t h
    · constructor
      · intro h
        simp only [popUntilLParen, if_neg ht] at h
        rcases List.mem_cons.mp h with h | h
        · exact h ▸ List.mem_cons_self t rest
        · exact List.mem_cons_of_mem t ((ih x).1 h)
      · intro h
        simp only [popUntilLParen, if_neg ht] at h
        exact List.mem_cons_of_mem t ((ih x).2 h)

/-- The `to_rpn` loop copies operand tokens through in order and never parks
one on the operator stack. -/
lemma runSY_operands :
    ∀ (ts : List Token) (st st' : SYState),
      runSY ts st = .ok st' →
      (∀ x ∈ st.stack, ∀ s, x ≠ Token.Operand s) →
      operandsOf st'.rpn = operandsOf st.rpn ++ operandsOf ts ∧
      (∀ x ∈ st'.stack, ∀ s, x ≠ Token.Operand s) := by
  intro ts
  induction ts with
  | nil =>
    intro st st' h hst
    injection h with h
    subst h
    exact ⟨by simp [operandsOf], hst⟩
  | cons t rest ih =>
    intro st st' h hst
    match t with
    | Token.Operand a =>
      have hstep : runSY (Token.Operand a :: rest) st =
          runSY rest ⟨st.rpn ++ [Token.Operand a], st.stack, st.opens⟩ := by
        simp [runSY, syStep]
      rw [hstep] at h
      obtain ⟨h1, h2⟩ := ih _ st' h hst
      refine ⟨?_, h2⟩
      rw [h1, operandsOf_append]
      simp [operandsOf]
    | Token.Operator op =>
      have hstep : runSY (Token.Operator op :: rest) st =
          runSY rest ⟨st.rpn ++ (popAll (precedence (Token.Operator op)) st.stack).1,
            Token.Operator op :: (popAll (precedence (Token.Operator op)) st.stack).2,
            st.opens⟩ := by
        simp [runSY, syStep]
      rw [hstep] at h
      have hmem1 : ∀ x ∈ (popAll (precedence (Token.Operator op)) st.stack).1,
          x ∈ st.stack := by
        intro x hx
        rw [← popAll_join (precedence (Token.Operator op)) st.stack]
        exact List.mem_append.mpr (Or.inl hx)
      have hmem2 : ∀ x ∈ (popAll (precedence (Token.Operator op)) st.stack).2,
          x ∈ st.stack := by
        intro x hx
        rw [← popAll_join (precedence (Token.Operator op)) st.stack]
        exact List.mem_append.mpr (Or.inr hx)
      obtain ⟨h1, h2⟩ := ih _ st' h
        (by
          intro x hx s
          rcases List.mem_cons.mp hx with hx | hx
          · subst hx; simp
          · exact hst x (hmem2 x hx) s)
      refine ⟨?_, h2⟩
      rw [h1, operandsOf_append,
        operandsOf_eq_nil (fun x hx s => hst x (hmem1 x hx) s)]
      simp [operandsOf]
    | Token.LeftParenthesis =>
      have hstep : runSY (Token.LeftParenthesis :: rest) st =
          runSY rest ⟨st.rpn, Token.LeftParenthesis :: st.stack, st.opens + 1⟩ := by
        simp [runSY, syStep]
      rw [hstep] at h
      obtain ⟨h1, h2⟩ := ih _ st' h
        (by
          intro x hx s
          rcases List.mem_cons.mp hx with hx | hx
          · subst hx; simp
          · exact hst x hx s)
      refine ⟨?_, h2⟩
      rw [h1]
      simp [operandsOf]
    | Token.RightParenthesis =>
      by_cases hz : st.opens = 0
      · rw [show runSY (Token.RightParenthesis :: rest) st = .error .ParsingStream
          from by simp [runSY, syStep, hz]] at h
        exact absurd h (by simp)
      · have hstep : runSY (Token.RightParenthesis :: rest) st =
            runSY rest ⟨st.rpn ++ (popUntilLParen st.stack).1,
              (popUntilLParen st.stack).2, st.opens - 1⟩ := by
          simp [runSY, syStep, hz]
        rw [hstep] at h
        obtain ⟨h1, h2⟩ := ih _ st' h
          (fun x hx s => hst x ((popUntilLParen_mem st.stack x).2 hx) s)
        refine ⟨?_, h2⟩
        rw [h1, operandsOf_append, operandsOf_eq_nil
          (fun x hx s => hst x ((popUntilLParen_mem st.stack x).1 hx) s)]
        simp [operandsOf]

/-- `to_rpn` preserves the operand sequence of its input. -/
lemma to_rpn_operands {ts rpn : List Token} (h : to_rpn ts = .ok rpn) :
    operandsOf rpn = operandsOf ts := by
  unfold to_rpn at h
  cases hrun : runSY ts ⟨[], [], 0⟩ with
  | error e => rw [hrun] at h; exact absurd h (by simp)
  | ok st =>
    rw [hrun] at h
    by_cases hz : st.opens = 0
    · simp only [hz, ne_eq, not_true_eq_false, if_false, Except.ok.injEq] at h
      subst h
      obtain ⟨h1, h2⟩ := runSY_operands ts ⟨[], [], 0⟩ st hrun (by simp)
      rw [operandsOf_append, h1, operandsOf_eq_nil h2]
      simp [operandsOf]
    · simp [hz] at h

/-- Auxiliary for relating the tokenizer to the regex split: prepend a
pending operand buffer onto the head segment. -/
def consHead (cur : List Char) : List (List Char) → List (List Char)
  | [] => [cur]
  | h :: t => (cur ++ h) :: t

/-- The segments kept by `parse_streams`'s trim-empty filter. -/
def keptSegs (ss : List (List Char)) : List (List Char) :=
  ss.filter (fun t => t.any (fun c => !c.isWhitespace))

/-- Guard for the tokenizer quirk at `'('` (utils.rs line 322): a left
parenthesis does *not* flush the operand buffer, so segments merge across it
whenever the buffer is non-empty there.  `parenOk cs curNe` walks the
characters tracking buffer non-emptiness and demands an empty buffer at every
`'('`. -/
def parenOk : List Char → Bool → Bool
  | [], _ => true
  | c :: rest, curNe =>
    if c = '(' then !curNe && parenOk rest curNe
    else if isSepChar c then parenOk rest false
    else parenOk rest true

lemma splitSeps_ne_nil : ∀ cs : List Char, splitSeps cs ≠ [] := by
  intro cs
  cases cs with
  | nil => simp [splitSeps]
  | cons c rest =>
    by_cases h : isSepChar c = true
    · simp [splitSeps, h]
    · simp only [splitSeps, h, Bool.false_eq_true, if_false]
      cases splitSeps rest <;> simp

lemma alnum_not_ws {c : Char} (h : c.isAlphanum = true) :
    c.isWhitespace = false := by
  cases hw : c.isWhitespace with
  | false => rfl
  | true =>
    exfalso
    have hd : ((c = ' ' ∨ c = '\t') ∨ c = '\r') ∨ c = '\n' := by
      simpa [Char.isWhitespace] using hw
    rcases hd with ((h1 | h1) | h1) | h1 <;> subst h1 <;> exact absurd h (by decide)

lemma any_not_ws_of_alnum {cur : List Char}
    (h : ∀ c ∈ cur, c.isAlphanum = true) (hne : cur ≠ []) :
    cur.any (fun c => !c.isWhitespace) = true := by
  cases cur with
  | nil => exact absurd rfl hne
  | cons c r =>
    have := alnum_not_ws (h c (List.mem_cons_self _ _))
    simp [List.any_cons, this]

/-- Tokenizer vs regex split: when `parse` succeeds and no `'('` is met with a
non-empty operand buffer, the operand sequence of the token list is exactly
the non-empty split segments, each with the suffix attached. -/
lemma parseChars_operands {suffix : List Char} :
    ∀ (cs cur : List Char) (ts : List Token),
      parseChars suffix cs cur = .ok ts →
      parenOk cs (!cur.isEmpty) = true →
      (∀ c ∈ cur, c.isAlphanum = true) →
      operandsOf ts =
        (keptSegs (consHead cur (splitSeps cs))).map (fun t => t ++ suffix) := by
  intro cs
  induction cs with
  | nil =>
    intro cur ts hp hok hcur
    simp only [parseChars] at hp
    injection hp with hp
    subst hp
    by_cases hc : cur = []
    · subst hc
      simp [flushOperand, operandsOf, splitSeps, consHead, keptSegs]
    · simp [flushOperand, hc, operandsOf, splitSeps, consHead, keptSegs,
        any_not_ws_of_alnum hcur hc]
  | cons c rest ih =>
    intro cur ts hp hok hcur
    simp only [parseChars] at hp
    by_cases hop : c = '+' ∨ c = '-' ∨ c = '*' ∨ c = '/'
    · have hlp : c ≠ '(' := by rcases hop with h | h | h | h <;> subst h <;> decide
      have hsep : isSepChar c = true := by
        rcases hop with h | h | h | h <;> subst h <;> decide
      simp only [if_pos hop, Except.map] at hp
      cases hrec : parseChars suffix rest [] with
      | error e => rw [hrec] at hp; exact absurd hp (by simp)
      | ok ts' =>
        rw [hrec] at hp
        injection hp with hp
        subst hp
        have hok2 : parenOk rest false = true := by
          simpa [parenOk, hlp, hsep] using hok
        have hih := ih [] ts' hrec hok2 (by simp)
        rw [operandsOf_append]
        have hskip : operandsOf (Token.Operator (opOfChar c) :: ts') =
            operandsOf ts' := by simp [operandsOf]
        rw [hskip, hih]
        rw [show splitSeps (c :: rest) = [] :: splitSeps rest from by
          simp [splitSeps, hsep]]
        cases hss : splitSeps rest with
        | nil => exact absurd hss (splitSeps_ne_nil rest)
        | cons sh st2 =>
          by_cases hc : cur = []
          · subst hc
            simp [flushOperand, operandsOf, consHead, keptSegs]
          · simp [flushOperand, hc, operandsOf, consHead, keptSegs,
              any_not_ws_of_alnum hcur hc]
    · rw [if_neg hop] at hp
      by_cases hlp : c = '('
      · simp only [if_pos hlp, Except.map] at hp
        cases hrec : parseChars suffix rest cur with
        | error e => rw [hrec] at hp; exact absurd hp (by simp)
        | ok ts' =>
          rw [hrec] at hp
          injection hp with hp
          subst hp
          cases cur with
          | cons c0 r0 =>
            exfalso
            simp [parenOk, hlp] at hok
          | nil =>
            have hok2 : parenOk rest false = true := by
              simpa [parenOk, hlp] using hok
            have hih := ih [] ts' hrec hok2 (by simp)
            have hskip : operandsOf (Token.LeftParenthesis :: ts') =
                operandsOf ts' := by simp [operandsOf]
            rw [hskip, hih]
            have hsep : isSepChar c = true := by subst hlp; decide
            rw [show splitSeps (c :: rest) = [] :: splitSeps rest from by
              simp [splitSeps, hsep]]
            cases hss : splitSeps rest with
            | nil => exact absurd hss (splitSeps_ne_nil rest)
            | cons sh st2 => simp [consHead, keptSegs]
      · rw [if_neg hlp] at hp
        by_cases hrp : c = ')'
        · have hsep : isSepChar c = true := by subst hrp; decide
          simp only [if_pos hrp, Except.map] at hp
          cases hrec : parseChars suffix rest [] with
          | error e => rw [hrec] at hp; exact absurd hp (by simp)
          | ok ts' =>
            rw [hrec] at hp
            injection hp with hp
            subst hp
            have hok2 : parenOk rest false = true := by
              simpa [parenOk, hlp, hsep] using hok
            have hih := ih [] ts' hrec hok2 (by simp)
            rw [operandsOf_append]
            have hskip : operandsOf (Token.RightParenthesis :: ts') =
                operandsOf ts' := by simp [operandsOf]
            rw [hskip, hih]
            rw [show splitSeps (c :: rest) = [] :: splitSeps rest from by
              simp [splitSeps, hsep]]
            cases hss : splitSeps rest with
            | nil => exact absurd hss (splitSeps_ne_nil rest)
            | cons sh st2 =>
              by_cases hc : cur = []
              · subst hc
                simp [flushOperand, operandsOf, consHead, keptSegs]
              · simp [flushOperand, hc, operandsOf, consHead, keptSegs,
                  any_not_ws_of_alnum hcur hc]
        · rw [if_neg hrp] at hp
          by_cases han : c.isAlphanum = true
          · rw [if_pos han] at hp
            have hsep : isSepChar c = false := by
              simp only [not_or] at hop
              simp [isSepChar, hlp, hrp, hop.1, hop.2.1, hop.2.2.1, hop.2.2.2]
            have hok2 : parenOk rest true = true := by
              simpa [parenOk, hlp, hsep] using hok
            have hemp : (cur ++ [c]).isEmpty = false := by cases cur <;> rfl
            have hok2' : parenOk rest (!(cur ++ [c]).isEmpty) = true := by
              rw [hemp]; exact hok2
            have hih := ih (cur ++ [c]) ts hp hok2'
              (by
                intro d hd
                rcases List.mem_append.mp hd with hd | hd
                · exact hcur d hd
                · rw [List.mem_singleton.mp hd]; exact han)
            rw [hih]
            have hch : consHead cur (splitSeps (c :: rest)) =
                consHead (cur ++ [c]) (splitSeps rest) := by
              rw [show splitSeps (c :: rest) =
                  (match splitSeps rest with
                   | [] => [[c]]
                   | t :: ts => (c :: t) :: ts) from by
                simp [splitSeps, hsep]]
              cases hss : splitSeps rest with
              | nil => exact absurd hss (splitSeps_ne_nil rest)
              | cons sh st2 => simp [consHead]
            rw [hch]
          · rw [if_neg han] at hp
            exact absurd hp (by simp)

/-- Claim C7, counterexample: `parse_streams` performs no deduplication — a
symbol occurring twice yields its stream identifier twice in the upstream
SUBSCRIBE params, while compilation succeeds; "contains no duplicate
identifiers" and "sequence of distinct operand identifiers" are false. -/
theorem parse_streams_duplicates_counterexample :
    compile "btcusdt+btcusdt@1m".toList = some (.ok
      [Token.Operand "btcusdt@kline_1m".toList,
       Token.Operand "btcusdt@kline_1m".toList,
       Token.Operator Operator.Plus]) ∧
    parse_streams "btcusdt+btcusdt@1m".toList =
      some ["btcusdt@kline_1m".toList, "btcusdt@kline_1m".toList] ∧
    ¬ (["btcusdt@kline_1m".toList,
        "btcusdt@kline_1m".toList] : List (List Char)).Nodup := by
  refine ⟨by decide, by decide, by decide⟩

/-- Claim C7, amended: on inputs where compilation succeeds and no `'('`
immediately follows operand characters (the tokenizer does not flush the
operand buffer at `'('`, merging segments otherwise), `parse_streams` returns
exactly the operand identifiers of the RPN plan in occurrence order, *with*
duplicates — there is no deduplication. -/
theorem parse_streams_eq_plan_operands (input before after : List Char)
    (ts rpn : List Token)
    (hs : splitLast input = some (before, after))
    (hp : parse input = some (.ok ts))
    (hr : to_rpn ts = .ok rpn)
    (hok : parenOk before false = true) :
    parse_streams input = some (operandsOf rpn) := by
  simp only [parse, hs, Option.some.injEq] at hp
  have hB := parseChars_operands before [] ts hp hok (by simp)
  have hch : consHead [] (splitSeps before) = splitSeps before := by
    cases hss : splitSeps before with
    | nil => exact absurd hss (splitSeps_ne_nil before)
    | cons sh st2 => simp [consHead]
  rw [hch] at hB
  rw [to_rpn_operands hr, hB]
  simp [parse_streams, hs, keptSegs]

/-- Claim C7 (amended), witness. -/
theorem parse_streams_eq_plan_operands_witness :
    parse_streams "btcusdt+ethusdt@1h".toList =
      some (operandsOf
        [Token.Operand "btcusdt@kline_1h".toList,
         Token.Operand "ethusdt@kline_1h".toList,
         Token.Operator Operator.Plus]) :=
  parse_streams_eq_plan_operands "btcusdt+ethusdt@1h".toList
    "btcusdt+ethusdt".toList "1h".toList
    [Token.Operand "btcusdt@kline_1h".toList,
     Token.Operator Operator.Plus,
     Token.Operand "ethusdt@kline_1h".toList]
    [Token.Operand "btcusdt@kline_1h".toList,
     Token.Operand "ethusdt@kline_1h".toList,
     Token.Operator Operator.Plus]
    (by decide) (by decide) (by decide) (by decide)

end Streams

end CandleServer
